import Mathlib

/-!
Verification of the tiling / stitching / post-processing pipeline of
`src/zf_unet/utils/img_processing.py`.

Images are modelled as a height, a width and a total pixel function
`ℕ → ℕ → ℕ` (pixel intensities; the source stores `uint8` values
0..255, but none of the operations below depend on an upper bound).
Only the values at coordinates `y < h`, `x < w` are meaningful.
-/

/-- Shallow embedding of a (single-channel) image: height, width and
a pixel function.  Pixels outside `[0,h) × [0,w)` are irrelevant. -/
@[ext]
structure Img where
  h : ℕ
  w : ℕ
  px : ℕ → ℕ → ℕ
  deriving Inhabited

/-- Placeholder image, used as the default for list lookups
(`imgs[i]` in the source raises before any use when out of range). -/
def emptyImg : Img := ⟨0, 0, fun _ _ => 0⟩

/-- Constant-intensity image (used for the all-white / all-black tests). -/
def constImg (h w v : ℕ) : Img := ⟨h, w, fun _ _ => v⟩

/-- Window extraction `img[y0:y0+sy, x0:x0+sx]` (numpy slicing of a
fully in-bounds window). -/
def crop (img : Img) (y0 x0 sy sx : ℕ) : Img :=
  ⟨sy, sx, fun y x => img.px (y0 + y) (x0 + x)⟩

/-- Embedding of `cv2.copyMakeBorder(img, b, b, 0, 0, BORDER_CONSTANT, value)`:
adds `b` rows of the constant `v` on top and bottom. -/
def padY (img : Img) (b v : ℕ) : Img :=
  ⟨img.h + 2 * b, img.w,
   fun y x => if b ≤ y ∧ y < b + img.h then img.px (y - b) x else v⟩

/-- Embedding of `cv2.copyMakeBorder(img, 0, 0, b, b, BORDER_CONSTANT, value)`:
adds `b` columns of the constant `v` on the left and right. -/
def padX (img : Img) (b v : ℕ) : Img :=
  ⟨img.h, img.w + 2 * b,
   fun y x => if b ≤ x ∧ x < b + img.w then img.px y (x - b) else v⟩

/-- Border size computed by `split_img`:
`(size_y - (max_y % size_y) + 1) // 2` (Python floor division). -/
def borderFor (size mx : ℕ) : ℕ := (size - mx % size + 1) / 2

/-- The padded intermediate image built by `split_img` (lines 15-25 of
`img_processing.py`): pad top/bottom when the height is not a multiple of
`size_y`, then left/right when the width is not a multiple of `size_x`,
with constant value 255 (white). -/
def padded_img (img : Img) (size_x size_y : ℕ) : Img :=
  let i1 := if img.h % size_y ≠ 0 then padY img (borderFor size_y img.h) 255 else img
  if img.w % size_x ≠ 0 then padX i1 (borderFor size_x img.w) 255 else i1

/-- Embedding of `split_img`: returns the patch list (raster scan of the
padded image: outer loop on `y` in steps of `size_y`, inner loop on `x`
in steps of `size_x`, each loop running while the window still fits),
together with `border_y` and `border_x`. -/
def split_img (img : Img) (size_x size_y : ℕ) : List Img × ℕ × ℕ :=
  let b_y := if img.h % size_y ≠ 0 then borderFor size_y img.h else 0
  let b_x := if img.w % size_x ≠ 0 then borderFor size_x img.w else 0
  let pimg := padded_img img size_x size_y
  let rows := pimg.h / size_y
  let cols := pimg.w / size_x
  ((List.range rows).flatMap (fun r => (List.range cols).map (fun c =>
      crop pimg (r * size_y) (c * size_x) size_y size_x)), b_y, b_x)

/-- One step of the stitching raster scan of `combine_imgs`: attempt
`img[curr_y:curr_y+size_y, curr_x:curr_x+size_x] = imgs[i]` for grid cell
`(r, c)` and advance `i`.  In the source the assignment is wrapped in
`try: ... except: i -= 1` followed by `i += 1`, so on any failure the
canvas and the index are both left unchanged.  The numpy assignment of a
`size_y × size_x` patch succeeds exactly when the index is in range, the
window lies fully inside the canvas (out-of-range slices are clipped by
numpy, producing a shape mismatch) and the patch has the expected shape. -/
def writeCell (imgs : List Img) (sy sx : ℕ) (st : Img × ℕ) (cell : ℕ × ℕ) :
    Img × ℕ :=
  if st.2 < imgs.length ∧ cell.1 * sy + sy ≤ st.1.h ∧ cell.2 * sx + sx ≤ st.1.w
      ∧ (imgs.getD st.2 emptyImg).h = sy ∧ (imgs.getD st.2 emptyImg).w = sx then
    (⟨st.1.h, st.1.w, fun y x =>
        if cell.1 * sy ≤ y ∧ y < cell.1 * sy + sy ∧ cell.2 * sx ≤ x ∧ x < cell.2 * sx + sx then
          (imgs.getD st.2 emptyImg).px (y - cell.1 * sy) (x - cell.2 * sx)
        else st.1.px y x⟩, st.2 + 1)
  else st

/-- The full raster scan of `combine_imgs`: grid cells `(r, c)` for
`r < R`, `c < C`, in row-major order, folded through `writeCell`. -/
def scanGrid (imgs : List Img) (sy sx R C : ℕ) (st : Img × ℕ) : Img × ℕ :=
  ((List.range R).flatMap (fun r => (List.range C).map (fun c => (r, c)))).foldl
    (writeCell imgs sy sx) st

/-- Embedding of `combine_imgs`.  The source first grows `max_y`/`max_x` by
`2 * border`, allocates a zero canvas of that size, then scans with the loop
bound `max_y + border_y * 2` computed from the *already grown* `max_y`
(an off-by-`2*border` bound; the extra cells always fail their assignment
and are absorbed by the bare `except`), and finally crops `border` pixels
from each side. -/
def combine_imgs (imgs : List Img) (border_y border_x max_y max_x : ℕ) : Img :=
  let my := max_y + border_y * 2
  let mx := max_x + border_x * 2
  let sy := (imgs.headD emptyImg).h
  let sx := (imgs.headD emptyImg).w
  let res := scanGrid imgs sy sx ((my + border_y * 2) / sy) ((mx + border_x * 2) / sx)
      (⟨my, mx, fun _ _ => 0⟩, 0)
  ⟨max_y, max_x, fun y x => res.1.px (border_y + y) (border_x + x)⟩

/-- Per-pixel map of `normalize_img` (`img.astype(float) / 255`) and of the
pre-model scaling in `process_unet_img`, with exact rational arithmetic in
place of IEEE floats. -/
def normalize_px (n : ℕ) : ℚ := (n : ℚ) / 255

/-- Per-pixel map of the post-model rescaling in `process_unet_img`
(`img = img * 255; img = img.astype(np.uint8)`): multiply by 255, then the
C-style cast truncates toward zero and wraps modulo 256 (for the
non-negative inputs considered here, truncation is the floor). -/
def denormalize_px (q : ℚ) : ℕ := (⌊q * 255⌋).toNat % 256

/-- One row of the stitching raster scan: cells `(r, 0) … (r, C-1)`. -/
def scanRow (imgs : List Img) (sy sx r C : ℕ) (st : Img × ℕ) : Img × ℕ :=
  ((List.range C).map (fun c => (r, c))).foldl (writeCell imgs sy sx) st

/-! ### Arithmetic helpers -/

/-- Characterisation of the grid row containing a coordinate. -/
lemma div_window {s y r : ℕ} (hs : 0 < s) :
    y / s = r ↔ r * s ≤ y ∧ y < r * s + s := by
  constructor
  · intro h
    subst h
    have h1 := Nat.div_add_mod y s
    have h2 := Nat.mod_lt y hs
    rw [Nat.mul_comm]
    omega
  · intro h
    exact Nat.div_eq_of_lt_le h.1 (by rw [Nat.succ_mul]; exact h.2)

/-- Dividing through a strict bound by an exact multiple. -/
lemma div_lt_div_of_lt_of_dvd {s a b : ℕ} (hs : 0 < s) (hab : a < b)
    (hb : b % s = 0) : a / s < b / s := by
  rw [Nat.div_lt_iff_lt_mul hs]
  have := Nat.div_add_mod b s
  rw [hb, Nat.add_zero] at this
  calc a < b := hab
    _ = s * (b / s) := this.symm
    _ = b / s * s := Nat.mul_comm _ _

/-- Row-major index of a grid cell is below the cell count. -/
lemma cell_index_lt {r c R C : ℕ} (hr : r < R) (hc : c < C) :
    r * C + c < R * C :=
  calc r * C + c < r * C + C := by omega
    _ = (r + 1) * C := (Nat.succ_mul r C).symm
    _ ≤ R * C := Nat.mul_le_mul_right C hr

/-- Row recovered from a row-major index. -/
lemma cell_index_div {r c C : ℕ} (hc : c < C) : (r * C + c) / C = r := by
  have hC : 0 < C := Nat.pos_of_ne_zero (by omega)
  exact (div_window hC).2 ⟨Nat.le_add_right _ _, by omega⟩

/-- Column recovered from a row-major index. -/
lemma cell_index_mod {r c C : ℕ} (hc : c < C) : (r * C + c) % C = c := by
  rw [Nat.add_comm, Nat.add_mul_mod_self_right]
  exact Nat.mod_eq_of_lt hc

/-- Height of the padded image, modulo the patch height: zero when the
border total `2 * ⌈(s - H % s)/2⌉` lands exactly on a multiple, and one
when `s - H % s` is odd (the rounding in the border formula overshoots
by a single pixel). -/
lemma padded_mod {s H : ℕ} (hs : 0 < s) (hm : H % s ≠ 0) :
    (H + 2 * ((s - H % s + 1) / 2)) % s = (s - H % s) % 2 := by
  have hr : H % s < s := Nat.mod_lt _ hs
  have hdm := Nat.div_add_mod H s
  have hsum : H + 2 * ((s - H % s + 1) / 2) = s * (H / s) + s + (s - H % s) % 2 := by
    omega
  have hs2 : (s - H % s) % 2 < s := by omega
  calc (H + 2 * ((s - H % s + 1) / 2)) % s
      = (s * (H / s + 1) + (s - H % s) % 2) % s := by rw [hsum]; ring_nf
    _ = (s - H % s) % 2 % s := Nat.mul_add_mod _ _ _
    _ = (s - H % s) % 2 := Nat.mod_eq_of_lt hs2

/-- Length of a row-major grid enumeration. -/
lemma length_grid {α : Type} (C : ℕ) (f : ℕ → ℕ → α) :
    ∀ R : ℕ, ((List.range R).flatMap (fun r => (List.range C).map (f r))).length = R * C := by
  intro R
  induction R with
  | zero => simp
  | succ R ih =>
    rw [List.range_succ, List.flatMap_append, List.length_append, ih]
    simp [Nat.succ_mul]

/-- Element of a row-major grid enumeration at a flat index. -/
lemma getD_grid {α : Type} (C : ℕ) (f : ℕ → ℕ → α) (d : α) :
    ∀ R i : ℕ, i < R * C →
      ((List.range R).flatMap (fun r => (List.range C).map (f r))).getD i d
        = f (i / C) (i % C) := by
  intro R
  induction R with
  | zero => intro i hi; omega
  | succ R ih =>
    intro i hi
    have hC : 0 < C := Nat.pos_of_ne_zero (by intro h; subst h; omega)
    rw [List.range_succ, List.flatMap_append, List.getD_eq_getElem?_getD,
      List.getElem?_append]
    rw [length_grid C f R]
    by_cases hlt : i < R * C
    · rw [if_pos hlt, ← List.getD_eq_getElem?_getD]
      exact ih i hlt
    · rw [if_neg hlt]
      have hiR : R * C ≤ i := Nat.le_of_not_lt hlt
      have hiC : i - R * C < C := by
        have : i < R * C + C := by
          calc i < (R + 1) * C := hi
            _ = R * C + C := Nat.succ_mul R C
        omega
      have hdiv : i / C = R := (div_window hC).2 ⟨hiR, by omega⟩
      have hmod : i % C = i - R * C := by
        have h := Nat.div_add_mod i C
        rw [hdiv, Nat.mul_comm] at h
        omega
      simp only [List.flatMap_cons, List.flatMap_nil, List.append_nil]
      rw [List.getElem?_map, List.getElem?_range hiC]
      simp [hdiv, hmod]

/-! ### Claim C7: borders of a 130 × 130 image at patch size 128 -/

/-- Claim C7 as stated is false: for a `130 × 130` image tiled at
`128 × 128`, `split_img` does **not** return `border_y = border_x = 1`;
the value is `(128 - 130 % 128 + 1) // 2 = 63`. -/
theorem border_130_c7_counterexample :
    ¬ ((split_img (constImg 130 130 0) 128 128).2.1 = 1
        ∧ (split_img (constImg 130 130 0) 128 128).2.2 = 1) := by
  decide

/-- Claim C7 (amended): for a `130 × 130` image tiled at `128 × 128`,
`split_img` returns `border_y = border_x = 63`. -/
theorem border_130_c7 :
    (split_img (constImg 130 130 0) 128 128).2.1 = 63
      ∧ (split_img (constImg 130 130 0) 128 128).2.2 = 63 := by
  decide

/-! ### Claim C2: padded dimensions versus the patch size -/

/-- Claim C2 as stated is false: a height-129 image padded for patch
height 128 gets border `(128 - 1 + 1) // 2 = 64` on each side, i.e.
padded height `257`, which is not a multiple of `128`. -/
theorem padded_multiple_c2_counterexample :
    ¬ ((padded_img (constImg 129 128 0) 128 128).h % 128 = 0) := by
  decide

/-- Claim C2 (amended): after `split_img` adds its borders the padded
height is a multiple of `size_y` exactly up to the parity of
`size_y - h % size_y`: the remainder of the padded height is `0` when the
original height already divides evenly, and `(size_y - h % size_y) % 2`
(i.e. `0` or `1`) otherwise; likewise for the width. -/
theorem padded_mod_c2 (img : Img) (size_x size_y : ℕ)
    (hsy : 0 < size_y) (hsx : 0 < size_x) :
    (padded_img img size_x size_y).h % size_y
        = (if img.h % size_y = 0 then 0 else (size_y - img.h % size_y) % 2)
      ∧ (padded_img img size_x size_y).w % size_x
        = (if img.w % size_x = 0 then 0 else (size_x - img.w % size_x) % 2) := by
  unfold padded_img borderFor
  constructor
  · by_cases hy : img.h % size_y = 0
    · by_cases hx : img.w % size_x = 0 <;> simp [hy, hx, padX, padY, Nat.mul_comm]
    · by_cases hx : img.w % size_x = 0 <;>
        simpa [hy, hx, padX, padY, Nat.mul_comm] using padded_mod hsy hy
  · by_cases hx : img.w % size_x = 0
    · by_cases hy : img.h % size_y = 0 <;> simp [hy, hx, padX, padY, Nat.mul_comm]
    · by_cases hy : img.h % size_y = 0 <;>
        simpa [hy, hx, padX, padY, Nat.mul_comm] using padded_mod hsx hx

/-- Witness for `padded_mod_c2` at a concrete input: a `129 × 128` image
with patch size `128` has padded height remainder `(128 - 1) % 2 = 1`. -/
theorem padded_mod_c2_witness :
    (padded_img (constImg 129 128 0) 128 128).h % 128
        = (if (constImg 129 128 0).h % 128 = 0 then 0
           else (128 - (constImg 129 128 0).h % 128) % 2)
      ∧ (padded_img (constImg 129 128 0) 128 128).w % 128
        = (if (constImg 129 128 0).w % 128 = 0 then 0
           else (128 - (constImg 129 128 0).w % 128) % 2) :=
  padded_mod_c2 (constImg 129 128 0) 128 128 (by decide) (by decide)

/-! ### Claim C3: patch count -/

/-- Number of patches produced by `split_img`: full grid rows times full
grid columns of the padded image. -/
lemma split_img_length (img : Img) (size_x size_y : ℕ) :
    (split_img img size_x size_y).1.length
      = (padded_img img size_x size_y).h / size_y
        * ((padded_img img size_x size_y).w / size_x) := by
  unfold split_img
  exact length_grid _ _ _

/-- Claim C3 as stated is false: a `129 × 128` image at patch size `128`
pads to `257 × 128` and yields `⌊257/128⌋ * ⌊128/128⌋ = 2` patches, not
`⌈257/128⌉ * ⌈128/128⌉ = 3`. -/
theorem patch_count_c3_counterexample :
    ¬ ((split_img (constImg 129 128 0) 128 128).1.length
        = ((padded_img (constImg 129 128 0) 128 128).h + 128 - 1) / 128
          * (((padded_img (constImg 129 128 0) 128 128).w + 128 - 1) / 128)) := by
  decide

/-- Claim C3 (amended): the number of patches returned by `split_img` is
`⌊padded_height / size_y⌋ * ⌊padded_width / size_x⌋` (floor, not ceiling;
the two agree whenever the padded dimensions are exact multiples of the
patch size, but a one-pixel overshoot row/column is silently dropped). -/
theorem patch_count_c3 (img : Img) (size_x size_y : ℕ) :
    (split_img img size_x size_y).1.length
      = (padded_img img size_x size_y).h / size_y
        * ((padded_img img size_x size_y).w / size_x) :=
  split_img_length img size_x size_y

/-! ### Claim C5: border formula and white padding -/

/-- Claim C5: `split_img` returns `border_y = ⌈(size_y - h % size_y) / 2⌉`
(= `(size_y - h % size_y + 1) // 2`) when the height is not a multiple of
`size_y` and `0` otherwise, `border_x` analogously, and the padded
intermediate image carries the original pixels shifted by the borders with
constant white (255) padding around them. -/
theorem border_formula_c5 (img : Img) (size_x size_y : ℕ)
    (hsy : 0 < size_y) (hsx : 0 < size_x) :
    (split_img img size_x size_y).2.1
        = (if img.h % size_y = 0 then 0 else (size_y - img.h % size_y + 1) / 2)
      ∧ (split_img img size_x size_y).2.2
        = (if img.w % size_x = 0 then 0 else (size_x - img.w % size_x + 1) / 2)
      ∧ (padded_img img size_x size_y).h = img.h + 2 * (split_img img size_x size_y).2.1
      ∧ (padded_img img size_x size_y).w = img.w + 2 * (split_img img size_x size_y).2.2
      ∧ ∀ y x, y < (padded_img img size_x size_y).h →
          x < (padded_img img size_x size_y).w →
          (padded_img img size_x size_y).px y x =
            if (split_img img size_x size_y).2.1 ≤ y
                ∧ y < (split_img img size_x size_y).2.1 + img.h
                ∧ (split_img img size_x size_y).2.2 ≤ x
                ∧ x < (split_img img size_x size_y).2.2 + img.w
            then img.px (y - (split_img img size_x size_y).2.1)
                (x - (split_img img size_x size_y).2.2)
            else 255 := by
  have hby : (split_img img size_x size_y).2.1
      = (if img.h % size_y = 0 then 0 else (size_y - img.h % size_y + 1) / 2) := by
    by_cases hy : img.h % size_y = 0 <;> simp [split_img, borderFor, hy]
  have hbx : (split_img img size_x size_y).2.2
      = (if img.w % size_x = 0 then 0 else (size_x - img.w % size_x + 1) / 2) := by
    by_cases hx : img.w % size_x = 0 <;> simp [split_img, borderFor, hx]
  have hph : (padded_img img size_x size_y).h
      = img.h + 2 * (split_img img size_x size_y).2.1 := by
    rw [hby]
    by_cases hy : img.h % size_y = 0 <;> by_cases hx : img.w % size_x = 0 <;>
      simp [padded_img, padX, padY, borderFor, hy, hx]
  have hpw : (padded_img img size_x size_y).w
      = img.w + 2 * (split_img img size_x size_y).2.2 := by
    rw [hbx]
    by_cases hy : img.h % size_y = 0 <;> by_cases hx : img.w % size_x = 0 <;>
      simp [padded_img, padX, padY, borderFor, hy, hx]
  refine ⟨hby, hbx, hph, hpw, ?_⟩
  intro y x hyh hxw
  rw [hph, hby] at hyh
  rw [hpw, hbx] at hxw
  rw [hby, hbx]
  by_cases hy : img.h % size_y = 0 <;> by_cases hx : img.w % size_x = 0 <;>
    simp only [hy, hx, ite_true, ite_false, if_true, if_false, ne_eq,
      not_true_eq_false, not_false_eq_true, padded_img, padX, padY, borderFor,
      Nat.mul_zero, Nat.add_zero, Nat.zero_add, Nat.sub_zero, if_pos, if_neg] at hyh hxw ⊢
  · rw [if_pos ⟨Nat.zero_le _, by omega, Nat.zero_le _, by omega⟩]
  · by_cases hxb : (size_x - img.w % size_x + 1) / 2 ≤ x
        ∧ x < (size_x - img.w % size_x + 1) / 2 + img.w
    · rw [if_pos hxb, if_pos ⟨Nat.zero_le _, by omega, hxb.1, hxb.2⟩]
    · rw [if_neg hxb, if_neg (by omega)]
  · by_cases hyb : (size_y - img.h % size_y + 1) / 2 ≤ y
        ∧ y < (size_y - img.h % size_y + 1) / 2 + img.h
    · rw [if_pos hyb, if_pos ⟨hyb.1, hyb.2, Nat.zero_le _, by omega⟩]
    · rw [if_neg hyb, if_neg (by omega)]
  · by_cases hxb : (size_x - img.w % size_x + 1) / 2 ≤ x
        ∧ x < (size_x - img.w % size_x + 1) / 2 + img.w
    · rw [if_pos hxb]
      by_cases hyb : (size_y - img.h % size_y + 1) / 2 ≤ y
          ∧ y < (size_y - img.h % size_y + 1) / 2 + img.h
      · rw [if_pos hyb, if_pos ⟨hyb.1, hyb.2, hxb.1, hxb.2⟩]
      · rw [if_neg hyb, if_neg (by omega)]
    · rw [if_neg hxb, if_neg (by omega)]

/-- Witness for `border_formula_c5`: a `3 × 5` image at patch size
`4 × 2` gets `border_y = 1`, `border_x = 2`, and the padded pixel at
`(1, 2)` is the original pixel at `(0, 0)`. -/
theorem border_formula_c5_witness :
    (split_img ⟨3, 5, fun y x => y * 10 + x⟩ 4 2).2.1 = 1
      ∧ (padded_img ⟨3, 5, fun y x => y * 10 + x⟩ 4 2).px 1 2
        = (⟨3, 5, fun y x => y * 10 + x⟩ : Img).px 0 0 :=
  ⟨(border_formula_c5 ⟨3, 5, fun y x => y * 10 + x⟩ 4 2 (by decide) (by decide)).1,
   (border_formula_c5 ⟨3, 5, fun y x => y * 10 + x⟩ 4 2 (by decide) (by decide)).2.2.2.2
     1 2 (by decide) (by decide)⟩

/-! ### Claim C6: row-major traversal order -/

/-- Claim C6: the patch at flat index `i` produced by `split_img` is the
`size_y × size_x` window of the padded image whose top-left corner is at
row `(i / patches_per_row) * size_y` and column
`(i % patches_per_row) * size_x`, where `patches_per_row` is the number of
patches per grid row. -/
theorem raster_order_c6 (img : Img) (size_x size_y : ℕ) :
    ∀ i, i < (split_img img size_x size_y).1.length →
      (split_img img size_x size_y).1.getD i emptyImg
        = crop (padded_img img size_x size_y)
            (i / ((padded_img img size_x size_y).w / size_x) * size_y)
            (i % ((padded_img img size_x size_y).w / size_x) * size_x)
            size_y size_x := by
  intro i hi
  rw [split_img_length] at hi
  unfold split_img
  exact getD_grid _ _ _ _ i hi

/-- Witness for `raster_order_c6`: in a `4 × 4` image at patch size `2`
(four patches, two per row), patch 3 is the window at row 2, column 2 of
the (un-padded) image. -/
theorem raster_order_c6_witness :
    3 < (split_img ⟨4, 4, fun y x => y * 10 + x⟩ 2 2).1.length
      ∧ (split_img ⟨4, 4, fun y x => y * 10 + x⟩ 2 2).1.getD 3 emptyImg
        = crop (padded_img ⟨4, 4, fun y x => y * 10 + x⟩ 2 2) 2 2 2 2 :=
  ⟨by decide, raster_order_c6 ⟨4, 4, fun y x => y * 10 + x⟩ 2 2 3 (by decide)⟩

/-! ### Closed form of the stitching scan -/

/-- List lookup with the default is a member when the index is in range. -/
lemma getD_mem_of_lt {l : List Img} {i : ℕ} (h : i < l.length) :
    l.getD i emptyImg ∈ l := by
  rw [List.getD_eq_getElem l emptyImg h]
  exact List.getElem_mem h

/-- Peeling one grid row off the scan. -/
lemma scanGrid_succ (imgs : List Img) (sy sx R C : ℕ) (st : Img × ℕ) :
    scanGrid imgs sy sx (R + 1) C st
      = scanRow imgs sy sx R C (scanGrid imgs sy sx R C st) := by
  unfold scanGrid scanRow
  rw [List.range_succ, List.flatMap_append, List.foldl_append]
  simp

/-- Effect of one row of the stitching scan, assuming all patches have the
canonical shape `sy × sx`.  A row whose window does not fit the canvas
height changes nothing (every assignment in it fails and is swallowed);
otherwise the first `min C (canvas.w / sx)` cells that still have patches
available receive consecutive patches, and the remaining cells of the row
are untouched. -/
lemma scanRow_spec (imgs : List Img) (sy sx : ℕ) (hsy : 0 < sy) (hsx : 0 < sx)
    (hsz : ∀ p ∈ imgs, p.h = sy ∧ p.w = sx)
    (r : ℕ) (canvas : Img) (i : ℕ) (hi : i ≤ imgs.length) :
    ∀ C : ℕ,
      (scanRow imgs sy sx r C (canvas, i)).1.h = canvas.h
      ∧ (scanRow imgs sy sx r C (canvas, i)).1.w = canvas.w
      ∧ (scanRow imgs sy sx r C (canvas, i)).2
          = (if r * sy + sy ≤ canvas.h then
              min imgs.length (i + min C (canvas.w / sx)) else i)
      ∧ ∀ y x, (scanRow imgs sy sx r C (canvas, i)).1.px y x
          = (if r * sy + sy ≤ canvas.h ∧ r * sy ≤ y ∧ y < r * sy + sy
                ∧ x / sx < min C (canvas.w / sx) ∧ i + x / sx < imgs.length
             then (imgs.getD (i + x / sx) emptyImg).px (y - r * sy) (x % sx)
             else canvas.px y x) := by
  intro C
  induction C with
  | zero =>
    refine ⟨rfl, rfl, ?_, ?_⟩
    · simp only [scanRow, List.range_zero, List.map_nil, List.foldl_nil]
      split
      · rw [Nat.zero_min, Nat.add_zero, Nat.min_eq_right hi]
      · rfl
    · intro y x
      simp only [scanRow, List.range_zero, List.map_nil, List.foldl_nil]
      rw [if_neg (fun hcl => by
        have hzero := hcl.2.2.2.1
        rw [Nat.zero_min] at hzero
        exact Nat.not_lt_zero _ hzero)]
  | succ C ih =>
    obtain ⟨Kh, Kw, Ki, Kpx⟩ := ih
    have hstep : scanRow imgs sy sx r (C + 1) (canvas, i)
        = writeCell imgs sy sx (scanRow imgs sy sx r C (canvas, i)) (r, C) := by
      unfold scanRow
      rw [List.range_succ, List.map_append, List.foldl_append]
      simp
    set K := scanRow imgs sy sx r C (canvas, i) with hK
    by_cases hrow : r * sy + sy ≤ canvas.h
    · by_cases hCV : C * sx + sx ≤ canvas.w
      · have hCVc : C < canvas.w / sx := by
          have : C + 1 ≤ canvas.w / sx :=
            (Nat.le_div_iff_mul_le hsx).2 (by rw [Nat.succ_mul]; exact hCV)
          omega
        have hminC : min C (canvas.w / sx) = C := Nat.min_eq_left (Nat.le_of_lt hCVc)
        have hminC1 : min (C + 1) (canvas.w / sx) = C + 1 := Nat.min_eq_left hCVc
        by_cases hilen : i + C < imgs.length
        · -- the assignment at cell (r, C) succeeds
          have hKi : K.2 = i + C := by rw [Ki, if_pos hrow, hminC]; omega
          have hcond : K.2 < imgs.length ∧ r * sy + sy ≤ K.1.h ∧ C * sx + sx ≤ K.1.w
              ∧ (imgs.getD K.2 emptyImg).h = sy ∧ (imgs.getD K.2 emptyImg).w = sx := by
            have hmem := getD_mem_of_lt (l := imgs) (i := K.2) (by omega)
            exact ⟨by omega, by rw [Kh]; exact hrow, by rw [Kw]; exact hCV,
              (hsz _ hmem).1, (hsz _ hmem).2⟩
          rw [hstep]
          unfold writeCell
          rw [if_pos hcond]
          refine ⟨Kh, Kw, by rw [hKi, if_pos hrow, hminC1]; omega, ?_⟩
          intro y x
          simp only [hKi]
          by_cases hxC : C * sx ≤ x ∧ x < C * sx + sx
          · have hxdiv : x / sx = C := (div_window hsx).2 hxC
            have hxm : x - C * sx = x % sx := by
              have h := Nat.div_add_mod x sx
              rw [hxdiv, Nat.mul_comm] at h
              omega
            by_cases hyw : r * sy ≤ y ∧ y < r * sy + sy
            · rw [if_pos ⟨hyw.1, hyw.2, hxC.1, hxC.2⟩,
                if_pos ⟨hrow, hyw.1, hyw.2, by omega, by omega⟩, hxm, hxdiv]
            · rw [if_neg (by tauto), Kpx y x, if_neg (by tauto),
                if_neg (by tauto)]
          · have hne : x / sx ≠ C := fun h => hxC ((div_window hsx).1 h)
            rw [if_neg (by tauto), Kpx y x, hminC1]
            rw [hminC]
            by_cases hfin : r * sy ≤ y ∧ y < r * sy + sy ∧ x / sx < C
                ∧ i + x / sx < imgs.length
            · rw [if_pos ⟨hrow, hfin.1, hfin.2.1, hfin.2.2.1, hfin.2.2.2⟩,
                if_pos ⟨hrow, hfin.1, hfin.2.1, by omega, hfin.2.2.2⟩]
            · rw [if_neg (by tauto), if_neg ?_]
              intro hcl
              exact hfin ⟨hcl.2.1, hcl.2.2.1, by omega, hcl.2.2.2.2⟩
        · -- patches are exhausted: the lookup fails and nothing changes
          have hKi : K.2 = imgs.length := by rw [Ki, if_pos hrow, hminC]; omega
          rw [hstep]
          unfold writeCell
          rw [if_neg (by rw [hKi]; omega)]
          refine ⟨Kh, Kw, by rw [hKi, if_pos hrow, hminC1]; omega, ?_⟩
          intro y x
          rw [Kpx y x, hminC1, hminC]
          by_cases hxC : C * sx ≤ x ∧ x < C * sx + sx
          · have hxdiv : x / sx = C := (div_window hsx).2 hxC
            rw [if_neg (by omega), if_neg (by omega)]
          · have hne : x / sx ≠ C := fun h => hxC ((div_window hsx).1 h)
            by_cases hfin : r * sy ≤ y ∧ y < r * sy + sy ∧ x / sx < C
                ∧ i + x / sx < imgs.length
            · rw [if_pos ⟨hrow, hfin.1, hfin.2.1, hfin.2.2.1, hfin.2.2.2⟩,
                if_pos ⟨hrow, hfin.1, hfin.2.1, by omega, hfin.2.2.2⟩]
            · rw [if_neg (by tauto), if_neg ?_]
              intro hcl
              exact hfin ⟨hcl.2.1, hcl.2.2.1, by omega, hcl.2.2.2.2⟩
      · -- the window falls off the right edge of the canvas: assignment fails
        have hge : canvas.w / sx ≤ C := by
          by_contra hlt
          exact hCV ((Nat.succ_mul C sx) ▸ (Nat.le_div_iff_mul_le hsx).1 (by omega))
        have hmin : min (C + 1) (canvas.w / sx) = min C (canvas.w / sx) := by omega
        rw [hstep]
        unfold writeCell
        rw [if_neg (by rw [Kw]; tauto)]
        refine ⟨Kh, Kw, by rw [Ki, hmin], ?_⟩
        intro y x
        rw [Kpx y x, hmin]
    · -- the row window falls off the bottom edge: the whole row is inert
      rw [hstep]
      unfold writeCell
      rw [if_neg (by rw [Kh]; tauto)]
      refine ⟨Kh, Kw, by rw [Ki, if_neg hrow, if_neg hrow], ?_⟩
      intro y x
      rw [Kpx y x, if_neg (by tauto), if_neg (by tauto)]

/-- Closed form of the full stitching scan started on a zero canvas with
patch index 0: cell `(r, c)` of the valid grid (`r < my / sy`,
`c < mx / sx`) holds patch `r * (mx / sx) + c` whenever that index exists,
and every other canvas pixel keeps the initial value 0.  `C` is the number
of columns scanned per row, at least the number of valid columns. -/
lemma scanGrid_spec (imgs : List Img) (sy sx : ℕ) (hsy : 0 < sy) (hsx : 0 < sx)
    (hsz : ∀ p ∈ imgs, p.h = sy ∧ p.w = sx)
    (my mx C : ℕ) (hC : mx / sx ≤ C) :
    ∀ R : ℕ,
      (scanGrid imgs sy sx R C (⟨my, mx, fun _ _ => 0⟩, 0)).1.h = my
      ∧ (scanGrid imgs sy sx R C (⟨my, mx, fun _ _ => 0⟩, 0)).1.w = mx
      ∧ (scanGrid imgs sy sx R C (⟨my, mx, fun _ _ => 0⟩, 0)).2
          = min imgs.length (min R (my / sy) * (mx / sx))
      ∧ ∀ y x, (scanGrid imgs sy sx R C (⟨my, mx, fun _ _ => 0⟩, 0)).1.px y x
          = (if y / sy < min R (my / sy) ∧ x / sx < mx / sx
                ∧ y / sy * (mx / sx) + x / sx < imgs.length
             then (imgs.getD (y / sy * (mx / sx) + x / sx) emptyImg).px
                (y % sy) (x % sx)
             else 0) := by
  intro R
  induction R with
  | zero =>
    refine ⟨rfl, rfl, ?_, ?_⟩
    · simp [scanGrid]
    · intro y x
      simp only [scanGrid, List.range_zero, List.flatMap_nil, List.foldl_nil]
      rw [if_neg (fun hcl => by
        have hzero := hcl.1
        rw [Nat.zero_min] at hzero
        exact Nat.not_lt_zero _ hzero)]
  | succ R ih =>
    obtain ⟨Gh, Gw, Gi, Gpx⟩ := ih
    rw [scanGrid_succ]
    set G := scanGrid imgs sy sx R C (⟨my, mx, fun _ _ => 0⟩, 0) with hG
    have hGlen : G.2 ≤ imgs.length := by rw [Gi]; omega
    obtain ⟨Sh, Sw, Si, Spx⟩ := scanRow_spec imgs sy sx hsy hsx hsz R G.1 G.2 hGlen C
    rw [show ((G.1, G.2) : Img × ℕ) = G from rfl] at Sh Sw Si Spx
    rw [Gh] at Sh Si Spx
    rw [Gw] at Sw Si Spx
    have hminCx : min C (mx / sx) = mx / sx := Nat.min_eq_right hC
    rw [hminCx] at Si Spx
    have hiff : R * sy + sy ≤ my ↔ R < my / sy := by
      rw [← Nat.succ_mul]
      exact ⟨fun h => (Nat.le_div_iff_mul_le hsy).2 h,
        fun h => (Nat.le_div_iff_mul_le hsy).1 (Nat.succ_le_of_lt h)⟩
    by_cases hRV : R * sy + sy ≤ my
    · have hRVr : R < my / sy := hiff.1 hRV
      have hminR : min R (my / sy) = R := Nat.min_eq_left (Nat.le_of_lt hRVr)
      have hminR1 : min (R + 1) (my / sy) = R + 1 := Nat.min_eq_left hRVr
      have hsm : (R + 1) * (mx / sx) = R * (mx / sx) + mx / sx := Nat.succ_mul _ _
      refine ⟨Sh, Sw, ?_, ?_⟩
      · rw [Si, if_pos hRV, Gi, hminR, hminR1, hsm]
        rcases Nat.le_total imgs.length (R * (mx / sx)) with hle | hle
        · rw [Nat.min_eq_left hle, Nat.min_eq_left (Nat.le_add_right _ _),
            Nat.min_eq_left (Nat.le_trans hle (Nat.le_add_right _ _))]
        · rw [Nat.min_eq_right hle]
      · intro y x
        rw [Spx y x, Gi, hminR, hminR1]
        by_cases hyR : R * sy ≤ y ∧ y < R * sy + sy
        · have hydiv : y / sy = R := (div_window hsy).2 hyR
          have hym : y % sy = y - R * sy := by
            have h := Nat.div_add_mod y sy
            rw [hydiv, Nat.mul_comm] at h
            omega
          by_cases hxV : x / sx < mx / sx
          · by_cases hglen : min imgs.length (R * (mx / sx)) + x / sx < imgs.length
            · have hRlen : min imgs.length (R * (mx / sx)) = R * (mx / sx) := by
                rcases Nat.le_total imgs.length (R * (mx / sx)) with hle | hle
                · exact absurd hglen (by
                    rw [Nat.min_eq_left hle]
                    exact Nat.not_lt.2 (Nat.le_add_right _ _))
                · exact Nat.min_eq_right hle
              have hilt : y / sy * (mx / sx) + x / sx < imgs.length := by
                rw [hydiv, ← hRlen]
                exact hglen
              rw [if_pos ⟨hRV, hyR.1, hyR.2, hxV, hglen⟩, hRlen,
                if_pos ⟨by rw [hydiv]; exact Nat.lt_succ_self R, hxV, hilt⟩,
                hydiv, hym]
            · have hnix : ¬ (y / sy * (mx / sx) + x / sx < imgs.length) := by
                rw [hydiv]
                intro hcl
                exact hglen (Nat.lt_of_le_of_lt
                  (Nat.add_le_add_right (Nat.min_le_right _ _) _) hcl)
              rw [if_neg (by tauto), Gpx y x, hminR,
                if_neg (fun hcl => by rw [hydiv] at hcl; exact Nat.lt_irrefl R hcl.1),
                if_neg (by tauto)]
          · rw [if_neg (by tauto), Gpx y x, hminR,
              if_neg (by tauto), if_neg (by tauto)]
        · have hyne : y / sy ≠ R := fun h => hyR ((div_window hsy).1 h)
          rw [if_neg (by tauto), Gpx y x, hminR]
          by_cases hfin : y / sy < R ∧ x / sx < mx / sx
              ∧ y / sy * (mx / sx) + x / sx < imgs.length
          · rw [if_pos hfin, if_pos ⟨Nat.lt_succ_of_lt hfin.1, hfin.2.1, hfin.2.2⟩]
          · rw [if_neg hfin, if_neg (fun hcl => hfin
              ⟨Nat.lt_of_le_of_ne (Nat.lt_succ_iff.1 hcl.1) hyne, hcl.2.1, hcl.2.2⟩)]
    · have hRVr : my / sy ≤ R := by
        by_contra hlt
        exact hRV (hiff.2 (by omega))
      have hminR : min R (my / sy) = my / sy := Nat.min_eq_right hRVr
      have hminR1 : min (R + 1) (my / sy) = my / sy := Nat.min_eq_right (by omega)
      refine ⟨Sh, Sw, ?_, ?_⟩
      · rw [Si, if_neg hRV, Gi, hminR, hminR1]
      · intro y x
        rw [Spx y x, if_neg (by tauto), Gpx y x, hminR, hminR1]

/-- Head of a non-empty list (with default) is a member. -/
lemma headD_mem {l : List Img} (h : l ≠ []) : l.headD emptyImg ∈ l := by
  cases l with
  | nil => exact absurd rfl h
  | cons a t => exact List.mem_cons_self a t

/-- Closed form of `combine_imgs` when every patch has the canonical shape
taken from the head of the list: the output has exactly the requested
`max_y × max_x` shape, and the pixel at `(y, x)` comes from the patch at
row-major index `(row of border_y + y) * cols + (column of border_x + x)`
of the valid stitching grid when that patch exists, and is `0` otherwise. -/
lemma combine_imgs_spec (imgs : List Img) (border_y border_x max_y max_x sy sx : ℕ)
    (hsy : 0 < sy) (hsx : 0 < sx)
    (hhh : (imgs.headD emptyImg).h = sy) (hhw : (imgs.headD emptyImg).w = sx)
    (hsz : ∀ p ∈ imgs, p.h = sy ∧ p.w = sx) :
    (combine_imgs imgs border_y border_x max_y max_x).h = max_y
    ∧ (combine_imgs imgs border_y border_x max_y max_x).w = max_x
    ∧ ∀ y x, (combine_imgs imgs border_y border_x max_y max_x).px y x
        = (if (border_y + y) / sy < (max_y + border_y * 2) / sy
              ∧ (border_x + x) / sx < (max_x + border_x * 2) / sx
              ∧ (border_y + y) / sy * ((max_x + border_x * 2) / sx)
                  + (border_x + x) / sx < imgs.length
           then (imgs.getD ((border_y + y) / sy * ((max_x + border_x * 2) / sx)
                  + (border_x + x) / sx) emptyImg).px
                ((border_y + y) % sy) ((border_x + x) % sx)
           else 0) := by
  obtain ⟨Gh, Gw, Gi, Gpx⟩ := scanGrid_spec imgs sy sx hsy hsx hsz
      (max_y + border_y * 2) (max_x + border_x * 2)
      ((max_x + border_x * 2 + border_x * 2) / sx)
      (Nat.div_le_div_right (Nat.le_add_right _ _))
      ((max_y + border_y * 2 + border_y * 2) / sy)
  have hminR : min ((max_y + border_y * 2 + border_y * 2) / sy)
      ((max_y + border_y * 2) / sy) = (max_y + border_y * 2) / sy :=
    Nat.min_eq_right (Nat.div_le_div_right (Nat.le_add_right _ _))
  rw [hminR] at Gpx
  have hcomb : combine_imgs imgs border_y border_x max_y max_x
      = ⟨max_y, max_x, fun y x =>
          (scanGrid imgs sy sx ((max_y + border_y * 2 + border_y * 2) / sy)
            ((max_x + border_x * 2 + border_x * 2) / sx)
            (⟨max_y + border_y * 2, max_x + border_x * 2, fun _ _ => 0⟩, 0)).1.px
            (border_y + y) (border_x + x)⟩ := by
    simp only [combine_imgs, hhh, hhw]
  rw [hcomb]
  exact ⟨rfl, rfl, fun y x => Gpx (border_y + y) (border_x + x)⟩

/-! ### Claim C10: combine_imgs is total and keeps missing cells at zero -/

/-- Claim C10: for a non-empty patch list of uniform positive size,
`combine_imgs` always returns (all failing assignments are swallowed by the
bare `except`) an image of exactly the requested `max_y × max_x` shape, and
every pixel whose grid cell has no patch available (row-major cell index at
least the number of patches) keeps the canvas's initial value 0. -/
theorem combine_total_c10 (imgs : List Img) (border_y border_x max_y max_x sy sx : ℕ)
    (hsy : 0 < sy) (hsx : 0 < sx) (hne : imgs ≠ [])
    (hsz : ∀ p ∈ imgs, p.h = sy ∧ p.w = sx) :
    (combine_imgs imgs border_y border_x max_y max_x).h = max_y
    ∧ (combine_imgs imgs border_y border_x max_y max_x).w = max_x
    ∧ ∀ y x, y < max_y → x < max_x →
        imgs.length ≤ (border_y + y) / sy * ((max_x + border_x * 2) / sx)
            + (border_x + x) / sx →
        (combine_imgs imgs border_y border_x max_y max_x).px y x = 0 := by
  have hmem := headD_mem hne
  obtain ⟨Ch, Cw, Cpx⟩ := combine_imgs_spec imgs border_y border_x max_y max_x sy sx
    hsy hsx (hsz _ hmem).1 (hsz _ hmem).2 hsz
  refine ⟨Ch, Cw, ?_⟩
  intro y x _ _ hidx
  rw [Cpx y x, if_neg (fun hcl => absurd hcl.2.2 (Nat.not_lt.2 hidx))]

/-- Witness for `combine_total_c10`: one `2 × 2` patch of constant value 5
stitched onto a `2 × 4` target (a 1 × 2 grid, so the second cell has no
patch): the result still has shape `2 × 4` and the second cell is zero. -/
theorem combine_total_c10_witness :
    (combine_imgs [⟨2, 2, fun _ _ => 5⟩] 0 0 2 4).h = 2
    ∧ (combine_imgs [⟨2, 2, fun _ _ => 5⟩] 0 0 2 4).w = 4
    ∧ (combine_imgs [⟨2, 2, fun _ _ => 5⟩] 0 0 2 4).px 0 3 = 0 :=
  ⟨(combine_total_c10 [⟨2, 2, fun _ _ => 5⟩] 0 0 2 4 2 2 (by decide) (by decide)
      (by simp) (by simp)).1,
   (combine_total_c10 [⟨2, 2, fun _ _ => 5⟩] 0 0 2 4 2 2 (by decide) (by decide)
      (by simp) (by simp)).2.1,
   (combine_total_c10 [⟨2, 2, fun _ _ => 5⟩] 0 0 2 4 2 2 (by decide) (by decide)
      (by simp) (by simp)).2.2 0 3 (by decide) (by decide) (by decide)⟩

/-! ### Claim C4: stitching with too few patches -/

/-- Claim C4 is contradicted by the code: stitching one `2 × 2` patch of
constant value 5 into a grid that needs two patches does **not** raise any
error.  The out-of-range access `imgs[1]` is caught by the bare `except`,
the index is rolled back, and `combine_imgs` returns a `2 × 4` image whose
first cell holds the patch and whose second cell silently stays all zero. -/
theorem insufficient_patches_c4 :
    (combine_imgs [⟨2, 2, fun _ _ => 5⟩] 0 0 2 4).h = 2
    ∧ (combine_imgs [⟨2, 2, fun _ _ => 5⟩] 0 0 2 4).w = 4
    ∧ (combine_imgs [⟨2, 2, fun _ _ => 5⟩] 0 0 2 4).px 0 0 = 5
    ∧ (combine_imgs [⟨2, 2, fun _ _ => 5⟩] 0 0 2 4).px 0 3 = 0 := by
  refine ⟨rfl, rfl, ?_, ?_⟩ <;> decide

/-! ### Claim C1: round trip -/

/-- Padded pixels over the original image area are the original pixels,
shifted by the borders (case where both paddings fire). -/
lemma padded_px_inner {img : Img} {size_x size_y y x : ℕ}
    (hy : img.h % size_y ≠ 0) (hx : img.w % size_x ≠ 0)
    (hyi : y < img.h) (hxi : x < img.w) :
    (padded_img img size_x size_y).px (borderFor size_y img.h + y)
        (borderFor size_x img.w + x) = img.px y x := by
  simp only [padded_img, hy, hx, ite_true, ite_false, ne_eq, not_false_eq_true,
    padX, padY]
  rw [if_pos ⟨Nat.le_add_right _ _, by omega⟩, Nat.add_sub_cancel_left,
    if_pos ⟨Nat.le_add_right _ _, by omega⟩, Nat.add_sub_cancel_left]

/-- Claim C1: for an image whose height and width are both not multiples of
the patch size, stitching the tiles produced by `split_img` (with the
original dimensions and the returned borders) yields an image of exactly
the original shape whose pixels all equal the original pixels; the border
pixels are cropped away.  (The one-pixel strip that an odd border total
leaves uncovered lies entirely inside the cropped border region.) -/
theorem round_trip_c1 (img : Img) (size_x size_y : ℕ)
    (hsy : 0 < size_y) (hsx : 0 < size_x)
    (hy : img.h % size_y ≠ 0) (hx : img.w % size_x ≠ 0) :
    (combine_imgs (split_img img size_x size_y).1 (split_img img size_x size_y).2.1
        (split_img img size_x size_y).2.2 img.h img.w).h = img.h
    ∧ (combine_imgs (split_img img size_x size_y).1 (split_img img size_x size_y).2.1
        (split_img img size_x size_y).2.2 img.h img.w).w = img.w
    ∧ ∀ y x, y < img.h → x < img.w →
        (combine_imgs (split_img img size_x size_y).1 (split_img img size_x size_y).2.1
          (split_img img size_x size_y).2.2 img.h img.w).px y x = img.px y x := by
  set b_y := borderFor size_y img.h with hbydef
  set b_x := borderFor size_x img.w with hbxdef
  set pimg := padded_img img size_x size_y with hpimg
  have hsb1 : (split_img img size_x size_y).2.1 = b_y := by
    simp [split_img, hy, hbydef]
  have hsb2 : (split_img img size_x size_y).2.2 = b_x := by
    simp [split_img, hx, hbxdef]
  have hph : pimg.h = img.h + 2 * b_y := by
    simp [hpimg, padded_img, padX, padY, hy, hx, hbydef]
  have hpw : pimg.w = img.w + 2 * b_x := by
    simp [hpimg, padded_img, padX, padY, hy, hx, hbxdef]
  have hry : img.h % size_y < size_y := Nat.mod_lt _ hsy
  have hrx : img.w % size_x < size_x := Nat.mod_lt _ hsx
  have hmley : img.h % size_y ≤ img.h := Nat.mod_le _ _
  have hmlex : img.w % size_x ≤ img.w := Nat.mod_le _ _
  have hmody : (img.h + (size_y - img.h % size_y)) % size_y = 0 := by
    have hdm := Nat.div_add_mod img.h size_y
    have h1 : img.h + (size_y - img.h % size_y)
        = size_y * (img.h / size_y) + size_y := by omega
    rw [h1, ← Nat.mul_succ, Nat.mul_mod_right]
  have hmodx : (img.w + (size_x - img.w % size_x)) % size_x = 0 := by
    have hdm := Nat.div_add_mod img.w size_x
    have h1 : img.w + (size_x - img.w % size_x)
        = size_x * (img.w / size_x) + size_x := by omega
    rw [h1, ← Nat.mul_succ, Nat.mul_mod_right]
  have hley : img.h + (size_y - img.h % size_y) ≤ pimg.h := by
    rw [hph, hbydef]
    unfold borderFor
    omega
  have hlex : img.w + (size_x - img.w % size_x) ≤ pimg.w := by
    rw [hpw, hbxdef]
    unfold borderFor
    omega
  have hrow : ∀ y, y < img.h → (b_y + y) / size_y < pimg.h / size_y := by
    intro y hyi
    have hlt : b_y + y < img.h + (size_y - img.h % size_y) := by
      rw [hbydef]
      unfold borderFor
      omega
    exact Nat.lt_of_lt_of_le (div_lt_div_of_lt_of_dvd hsy hlt hmody)
      (Nat.div_le_div_right hley)
  have hcol : ∀ x, x < img.w → (b_x + x) / size_x < pimg.w / size_x := by
    intro x hxi
    have hlt : b_x + x < img.w + (size_x - img.w % size_x) := by
      rw [hbxdef]
      unfold borderFor
      omega
    exact Nat.lt_of_lt_of_le (div_lt_div_of_lt_of_dvd hsx hlt hmodx)
      (Nat.div_le_div_right hlex)
  have hall : ∀ p ∈ (split_img img size_x size_y).1, p.h = size_y ∧ p.w = size_x := by
    intro p hp
    simp only [split_img, List.mem_flatMap, List.mem_map, List.mem_range] at hp
    obtain ⟨r, hr, c, hc, rfl⟩ := hp
    exact ⟨rfl, rfl⟩
  have hlen : (split_img img size_x size_y).1.length
      = pimg.h / size_y * (pimg.w / size_x) := by
    unfold split_img
    exact length_grid _ _ _
  have hrows1 : 0 < pimg.h / size_y := (Nat.one_le_div_iff hsy).2 (by omega)
  have hcols1 : 0 < pimg.w / size_x := (Nat.one_le_div_iff hsx).2 (by omega)
  have hne : (split_img img size_x size_y).1 ≠ [] := by
    rw [← List.length_pos, hlen]
    exact Nat.mul_pos hrows1 hcols1
  have hmem := headD_mem hne
  obtain ⟨Ch, Cw, Cpx⟩ := combine_imgs_spec (split_img img size_x size_y).1
      (split_img img size_x size_y).2.1 (split_img img size_x size_y).2.2 img.h img.w
      size_y size_x hsy hsx (hall _ hmem).1 (hall _ hmem).2 hall
  refine ⟨Ch, Cw, ?_⟩
  intro y x hyi hxi
  rw [Cpx y x, hsb1, hsb2]
  have hmy : img.h + b_y * 2 = pimg.h := by rw [hph]; ring
  have hmx : img.w + b_x * 2 = pimg.w := by rw [hpw]; ring
  rw [hmy, hmx]
  have hrowY : (b_y + y) / size_y < pimg.h / size_y := hrow y hyi
  have hcolX : (b_x + x) / size_x < pimg.w / size_x := hcol x hxi
  have hidxg : (b_y + y) / size_y * (pimg.w / size_x) + (b_x + x) / size_x
      < pimg.h / size_y * (pimg.w / size_x) := cell_index_lt hrowY hcolX
  have hidx : (b_y + y) / size_y * (pimg.w / size_x) + (b_x + x) / size_x
      < (split_img img size_x size_y).1.length := by
    rw [hlen]
    exact hidxg
  rw [if_pos ⟨hrowY, hcolX, hidx⟩]
  have hgrid := getD_grid (pimg.w / size_x)
    (fun r c => crop pimg (r * size_y) (c * size_x) size_y size_x) emptyImg
    (pimg.h / size_y) ((b_y + y) / size_y * (pimg.w / size_x) + (b_x + x) / size_x)
    hidxg
  rw [cell_index_div hcolX, cell_index_mod hcolX] at hgrid
  have hgetd : (split_img img size_x size_y).1.getD
      ((b_y + y) / size_y * (pimg.w / size_x) + (b_x + x) / size_x) emptyImg
      = crop pimg ((b_y + y) / size_y * size_y) ((b_x + x) / size_x * size_x)
          size_y size_x := by
    unfold split_img
    exact hgrid
  rw [hgetd]
  show pimg.px ((b_y + y) / size_y * size_y + (b_y + y) % size_y)
      ((b_x + x) / size_x * size_x + (b_x + x) % size_x) = img.px y x
  have hYdm : (b_y + y) / size_y * size_y + (b_y + y) % size_y = b_y + y := by
    rw [Nat.mul_comm]
    exact Nat.div_add_mod _ _
  have hXdm : (b_x + x) / size_x * size_x + (b_x + x) % size_x = b_x + x := by
    rw [Nat.mul_comm]
    exact Nat.div_add_mod _ _
  rw [hYdm, hXdm]
  exact padded_px_inner hy hx hyi hxi

/-- Witness for `round_trip_c1`: a `3 × 3` image split at `2 × 2` (borders
become 1 and 1) stitches back to a `3 × 3` image whose pixel `(2, 1)` is
the original pixel `(2, 1)`. -/
theorem round_trip_c1_witness :
    (combine_imgs (split_img ⟨3, 3, fun y x => y * 10 + x⟩ 2 2).1
        (split_img ⟨3, 3, fun y x => y * 10 + x⟩ 2 2).2.1
        (split_img ⟨3, 3, fun y x => y * 10 + x⟩ 2 2).2.2 3 3).h = 3
    ∧ (combine_imgs (split_img ⟨3, 3, fun y x => y * 10 + x⟩ 2 2).1
        (split_img ⟨3, 3, fun y x => y * 10 + x⟩ 2 2).2.1
        (split_img ⟨3, 3, fun y x => y * 10 + x⟩ 2 2).2.2 3 3).px 2 1
      = (⟨3, 3, fun y x => y * 10 + x⟩ : Img).px 2 1 :=
  ⟨(round_trip_c1 ⟨3, 3, fun y x => y * 10 + x⟩ 2 2 (by decide) (by decide)
      (by decide) (by decide)).1,
   (round_trip_c1 ⟨3, 3, fun y x => y * 10 + x⟩ 2 2 (by decide) (by decide)
      (by decide) (by decide)).2.2 2 1 (by decide) (by decide)⟩

/-! ### Claim C8: normalization round trip -/

/-- Claim C8 as stated is false even in exact arithmetic: for the pixel
value `1/510`, denormalizing (`* 255`, truncate to `uint8`) gives `0`, and
normalizing back gives `0`, off by `1/510` — a full half quantization step,
far beyond floating-point tolerance. -/
theorem normalize_round_trip_c8_counterexample :
    ¬ (normalize_px (denormalize_px (1 / 510)) = (1 / 510 : ℚ)) := by
  norm_num [normalize_px, denormalize_px]

/-- Claim C8 (amended): the round trip `normalize ∘ denormalize` loses the
quantization to 256 levels: for every pixel value `q ∈ [0, 1]`, the result
is within the quantization step `1/255` of `q` (strictly), not equal to it. -/
theorem normalize_round_trip_c8 (q : ℚ) (h0 : 0 ≤ q) (h1 : q ≤ 1) :
    |normalize_px (denormalize_px q) - q| < 1 / 255 := by
  have h255 : (0 : ℚ) ≤ q * 255 := by positivity
  have hfl0 : 0 ≤ ⌊q * 255⌋ := Int.floor_nonneg.2 h255
  have hfl255 : ⌊q * 255⌋ ≤ 255 := by
    have hle : q * 255 ≤ 255 := by nlinarith
    calc ⌊q * 255⌋ ≤ ⌊(255 : ℚ)⌋ := Int.floor_le_floor hle
      _ = 255 := by norm_num
  have htn : ((⌊q * 255⌋).toNat : ℤ) = ⌊q * 255⌋ := Int.toNat_of_nonneg hfl0
  have hmod : (⌊q * 255⌋).toNat % 256 = (⌊q * 255⌋).toNat :=
    Nat.mod_eq_of_lt (by omega)
  unfold normalize_px denormalize_px
  rw [hmod]
  have hcast : (((⌊q * 255⌋).toNat : ℕ) : ℚ) = ((⌊q * 255⌋ : ℤ) : ℚ) := by
    exact_mod_cast congrArg (fun z : ℤ => (z : ℚ)) htn
  rw [hcast]
  have hlow : ((⌊q * 255⌋ : ℤ) : ℚ) ≤ q * 255 := Int.floor_le _
  have hhigh : q * 255 < (⌊q * 255⌋ : ℤ) + 1 := Int.lt_floor_add_one _
  rw [abs_sub_lt_iff]
  constructor <;> [linarith; linarith]

/-- Witness for `normalize_round_trip_c8` at `q = 1/2`: denormalization
gives 127, and `127/255` is within `1/255` of `1/2`. -/
theorem normalize_round_trip_c8_witness :
    0 ≤ (1 / 2 : ℚ) ∧ (1 / 2 : ℚ) ≤ 1
      ∧ |normalize_px (denormalize_px (1 / 2)) - 1 / 2| < 1 / 255 :=
  ⟨by norm_num, by norm_num,
   normalize_round_trip_c8 (1 / 2) (by norm_num) (by norm_num)⟩

/-! ### Claim C9: post-processing of constant images -/

/-- Modelled from the spec: the histogram underlying Otsu's method — the
number of pixels of the image with intensity exactly `b`
(`postprocess_img` calls `cv2.threshold(..., THRESH_BINARY + THRESH_OTSU)`,
whose Otsu threshold is computed from the 256-bin intensity histogram;
OpenCV is an external dependency, so its documented semantics are modelled
here). -/
def hist (img : Img) (b : ℕ) : ℕ :=
  ((List.range img.h).map (fun y =>
    ((List.range img.w).filter (fun x => img.px y x == b)).length)).sum

/-- Modelled from the spec: weight (pixel count) of the low class `≤ t`
of Otsu's split. -/
def wLow (img : Img) (t : ℕ) : ℕ :=
  (((List.range 256).filter (fun b => decide (b ≤ t))).map (hist img)).sum

/-- Modelled from the spec: weight (pixel count) of the high class `> t`
of Otsu's split. -/
def wHigh (img : Img) (t : ℕ) : ℕ :=
  (((List.range 256).filter (fun b => decide (t < b))).map (hist img)).sum

/-- Modelled from the spec: total intensity of the low class `≤ t`. -/
def mLow (img : Img) (t : ℕ) : ℕ :=
  (((List.range 256).filter (fun b => decide (b ≤ t))).map
    (fun b => b * hist img b)).sum

/-- Modelled from the spec: total intensity of the high class `> t`. -/
def mHigh (img : Img) (t : ℕ) : ℕ :=
  (((List.range 256).filter (fun b => decide (t < b))).map
    (fun b => b * hist img b)).sum

/-- Modelled from the spec: between-class variance of the split at `t`
(up to the positive constant total-pixel normalization, which does not
change the argmax), with OpenCV's convention that a split with an empty
class is skipped (score 0).  Otsu's threshold minimizes intra-class
variance, equivalently maximizes this between-class variance. -/
def sigmaB (img : Img) (t : ℕ) : ℚ :=
  if wLow img t = 0 ∨ wHigh img t = 0 then 0
  else (wLow img t : ℚ) * (wHigh img t : ℚ)
    * ((mLow img t : ℚ) / (wLow img t : ℚ) - (mHigh img t : ℚ) / (wHigh img t : ℚ)) ^ 2

/-- Modelled from the spec: the Otsu-optimal threshold — the smallest
`t < 256` strictly maximizing the between-class variance, starting from 0
(OpenCV keeps the first maximum and returns 0 when every split is skipped,
as happens for a constant image). -/
def otsuThreshold (img : Img) : ℕ :=
  (List.range 256).foldl
    (fun best t => if sigmaB img best < sigmaB img t then t else best) 0

/-- Modelled from the spec: `cv2.threshold(img, 0, 255, THRESH_BINARY)`
at threshold `t` — 255 where the pixel exceeds `t`, else 0. -/
def thresholdBinary (img : Img) (t : ℕ) : Img :=
  ⟨img.h, img.w, fun y x => if t < img.px y x then 255 else 0⟩

/-- Modelled from the spec: the in-bounds neighbours of `(y, x)` under the
3 × 3 cross structuring element (`cv2.getStructuringElement(MORPH_CROSS,
(3, 3))`), excluding the centre; out-of-image neighbours are ignored
(OpenCV's default morphology border value is neutral for min/max). -/
def crossVals (img : Img) (y x : ℕ) : List ℕ :=
  (if y + 1 < img.h then [img.px (y + 1) x] else [])
    ++ (if 0 < y then [img.px (y - 1) x] else [])
    ++ (if x + 1 < img.w then [img.px y (x + 1)] else [])
    ++ (if 0 < x then [img.px y (x - 1)] else [])

/-- Modelled from the spec: one iteration of `cv2.erode` with the 3 × 3
cross — the minimum over the cross neighbourhood. -/
def erode3 (img : Img) : Img :=
  ⟨img.h, img.w, fun y x => (crossVals img y x).foldl Nat.min (img.px y x)⟩

/-- Modelled from the spec: one iteration of `cv2.dilate` with the 3 × 3
cross — the maximum over the cross neighbourhood. -/
def dilate3 (img : Img) : Img :=
  ⟨img.h, img.w, fun y x => (crossVals img y x).foldl Nat.max (img.px y x)⟩

/-- Embedding of `postprocess_img`: Otsu binary threshold, one erosion,
one dilation (the underlying OpenCV primitives are modelled from the spec
above). -/
def postprocess_img (img : Img) : Img :=
  dilate3 (erode3 (thresholdBinary img (otsuThreshold img)))

/-- Histogram of a constant image vanishes away from the constant. -/
lemma hist_const_ne {h w v b : ℕ} (hne : b ≠ v) : hist (constImg h w v) b = 0 := by
  unfold hist constImg
  apply List.sum_eq_zero
  intro n hn
  simp only [List.mem_map] at hn
  obtain ⟨y, hy, rfl⟩ := hn
  have hf : (fun x => ((⟨h, w, fun _ _ => v⟩ : Img).px y x == b)) = fun _ => false := by
    funext x
    simp [Ne.symm hne]
  rw [hf]
  simp

/-- Every Otsu split of a constant image has an empty class, so every
between-class variance is zero. -/
lemma sigmaB_const (h w v t : ℕ) : sigmaB (constImg h w v) t = 0 := by
  unfold sigmaB
  rcases Nat.lt_or_ge t v with hlt | hge
  · refine if_pos (Or.inl ?_)
    unfold wLow
    apply List.sum_eq_zero
    intro n hn
    simp only [List.mem_map, List.mem_filter, List.mem_range,
      decide_eq_true_eq] at hn
    obtain ⟨b, ⟨hb256, hble⟩, rfl⟩ := hn
    exact hist_const_ne (by omega)
  · refine if_pos (Or.inr ?_)
    unfold wHigh
    apply List.sum_eq_zero
    intro n hn
    simp only [List.mem_map, List.mem_filter, List.mem_range,
      decide_eq_true_eq] at hn
    obtain ⟨b, ⟨hb256, hbgt⟩, rfl⟩ := hn
    exact hist_const_ne (by omega)

/-- A best-so-far fold over identically zero scores never moves. -/
lemma foldl_best_zero {f : ℕ → ℚ} (hf : ∀ t, f t = 0) :
    ∀ (l : List ℕ) (b : ℕ),
      l.foldl (fun best t => if f best < f t then t else best) b = b := by
  intro l
  induction l with
  | nil => intro b; rfl
  | cons a tl ih =>
    intro b
    rw [List.foldl_cons, hf a, hf b, if_neg (lt_irrefl 0)]
    exact ih b

/-- Otsu on a constant image returns threshold 0. -/
lemma otsu_const (h w v : ℕ) : otsuThreshold (constImg h w v) = 0 := by
  unfold otsuThreshold
  exact foldl_best_zero (sigmaB_const h w v) _ 0

/-- Folding `Nat.min` over copies of the start value is the start value. -/
lemma foldl_min_all_eq : ∀ {l : List ℕ} {c : ℕ},
    (∀ v ∈ l, v = c) → l.foldl Nat.min c = c := by
  intro l
  induction l with
  | nil => intro c _; rfl
  | cons a tl ih =>
    intro c hl
    rw [List.foldl_cons, hl a (List.mem_cons_self _ _),
      show Nat.min c c = c by simp [Nat.min_def]]
    exact ih (fun v hv => hl v (List.mem_cons_of_mem _ hv))

/-- Folding `Nat.max` over copies of the start value is the start value. -/
lemma foldl_max_all_eq : ∀ {l : List ℕ} {c : ℕ},
    (∀ v ∈ l, v = c) → l.foldl Nat.max c = c := by
  intro l
  induction l with
  | nil => intro c _; rfl
  | cons a tl ih =>
    intro c hl
    rw [List.foldl_cons, hl a (List.mem_cons_self _ _),
      show Nat.max c c = c by simp [Nat.max_def]]
    exact ih (fun v hv => hl v (List.mem_cons_of_mem _ hv))

/-- Neighbour values of a pixel-wise constant image are that constant. -/
lemma crossVals_constfun {img : Img} {c : ℕ} (hc : ∀ y x, img.px y x = c)
    {y x : ℕ} : ∀ v ∈ crossVals img y x, v = c := by
  intro v hv
  unfold crossVals at hv
  simp only [List.mem_append] at hv
  rcases hv with ((h1 | h2) | h3) | h4
  · split at h1
    · rw [List.mem_singleton] at h1; rw [h1]; exact hc _ _
    · simp at h1
  · split at h2
    · rw [List.mem_singleton] at h2; rw [h2]; exact hc _ _
    · simp at h2
  · split at h3
    · rw [List.mem_singleton] at h3; rw [h3]; exact hc _ _
    · simp at h3
  · split at h4
    · rw [List.mem_singleton] at h4; rw [h4]; exact hc _ _
    · simp at h4

/-- Erosion leaves a pixel-wise constant image pixel-wise constant. -/
lemma erode3_constfun {img : Img} {c : ℕ} (hc : ∀ y x, img.px y x = c) :
    ∀ y x, (erode3 img).px y x = c := by
  intro y x
  unfold erode3
  rw [show (⟨img.h, img.w, fun y x => (crossVals img y x).foldl Nat.min
      (img.px y x)⟩ : Img).px y x
    = (crossVals img y x).foldl Nat.min (img.px y x) from rfl, hc y x]
  exact foldl_min_all_eq (crossVals_constfun hc)

/-- Dilation leaves a pixel-wise constant image pixel-wise constant. -/
lemma dilate3_constfun {img : Img} {c : ℕ} (hc : ∀ y x, img.px y x = c) :
    ∀ y x, (dilate3 img).px y x = c := by
  intro y x
  unfold dilate3
  rw [show (⟨img.h, img.w, fun y x => (crossVals img y x).foldl Nat.max
      (img.px y x)⟩ : Img).px y x
    = (crossVals img y x).foldl Nat.max (img.px y x) from rfl, hc y x]
  exact foldl_max_all_eq (crossVals_constfun hc)

/-- Claim C9: the post-processor (Otsu binary threshold, one erosion and
one dilation with the 3 × 3 cross) returns an all-white image and an
all-black image unchanged: Otsu on a constant image yields threshold 0, so
thresholding maps all-255 to all-255 and all-0 to all-0, and erosion and
dilation are identities on constant images. -/
theorem postprocess_const_c9 (h w : ℕ) :
    postprocess_img (constImg h w 255) = constImg h w 255
    ∧ postprocess_img (constImg h w 0) = constImg h w 0 := by
  constructor
  · have hT : ∀ y x,
        (thresholdBinary (constImg h w 255) (otsuThreshold (constImg h w 255))).px y x
          = 255 := by
      intro y x
      unfold thresholdBinary
      rw [otsu_const]
      simp [constImg]
    have hD := dilate3_constfun (erode3_constfun hT)
    refine Img.ext rfl rfl ?_
    funext y x
    exact hD y x
  · have hT : ∀ y x,
        (thresholdBinary (constImg h w 0) (otsuThreshold (constImg h w 0))).px y x
          = 0 := by
      intro y x
      unfold thresholdBinary
      rw [otsu_const]
      simp [constImg]
    have hD := dilate3_constfun (erode3_constfun hT)
    refine Img.ext rfl rfl ?_
    funext y x
    exact hD y x
